import Mathlib

/-!
Shallow embedding of the c-list library (src/src/list.c, src/include/list.h).

Modelling choices:
* Pointers (`void *` payloads and `list_element_t *` node pointers) are
  modelled as natural-number addresses.  `NULL` is modelled by `Option`
  (`none`) where a pointer may be absent, and payload `NULL` checks
  (`NULL != tmp->e`) compare the payload address against `0`.
* Each node (`list_element_t`) carries its own address `id` (the value of
  the `list_element_t *` pointer returned by `malloc`) and its payload
  address `e`.  Addresses are handed out by a bump allocator: the field
  `nextId` of the list state is the next fresh address; `malloc` never
  returns an address previously handed out.
* The doubly linked chain (`first`/`last` pointers of `list_t`, the
  `prev`/`next` pointers of `list_element_t`) is modelled as the sequence
  `chain : List list_element_t` in first-to-last order.  `list->first` is
  `chain.head?`, `list->last` is `chain.getLast?`, a node's `next` pointer
  is the element following it in the sequence (`succElem`), its `prev`
  pointer the element preceding it (`predElem`).  The pointer surgery of
  the C code (e.g. lines 399-420 of list.c) becomes the corresponding
  sequence update.
* `sem_wait`/`sem_post` delimit the critical section; the model is the
  sequential state transformer executed inside it.
* `malloc` failure is modelled by boolean oracles (`nodeOk` for the node
  allocation, `copyOk` for the payload-copy allocation in owning mode).
* Removal operations additionally return the list of addresses passed to
  `free` during the call, so that the freeing behaviour is observable.
-/

/-- `list_element_t` (list.h lines 101-105): a chain node.  `id` is the
node's own address, `e` the stored payload address.  The `prev`/`next`
pointers are represented by the node's position in the chain sequence. -/
structure list_element_t where
  id : Nat
  e : Nat
deriving DecidableEq, Repr

/-- `list_t` (list.h lines 110-118).  `chain` represents the
`first`/`last`/`prev`/`next` pointer structure as a sequence in
first-to-last order; `curr` is the cursor node (`NULL` = `none`);
`count`, `alloc`, `sort` are the corresponding fields.  `nextId` is the
bump-allocator state (not a field of the C struct). -/
structure list_t where
  chain : List list_element_t
  curr : Option list_element_t
  count : Nat
  alloc : Bool
  sort : Option (Nat → Nat → Bool)
  nextId : Nat

/-- `list->first` (list.h line 111): first element of the chain, `NULL` if empty. -/
def list_first (l : list_t) : Option list_element_t :=
  l.chain.head?

/-- `list->last` (list.h line 112): last element of the chain, `NULL` if empty. -/
def list_last (l : list_t) : Option list_element_t :=
  l.chain.getLast?

/-- Dereference `x->next` for the node with address `i`: the element that
follows it in the chain, `none` when it is the last one or absent. -/
def succElem : List list_element_t → Nat → Option list_element_t
  | [], _ => none
  | x :: xs, i => if x.id = i then xs.head? else succElem xs i

/-- Helper for `predElem`: `p` is the element just before the current head. -/
def predElemAux (p : list_element_t) : List list_element_t → Nat → Option list_element_t
  | [], _ => none
  | x :: xs, i => if x.id = i then some p else predElemAux x xs i

/-- Dereference `x->prev` for the node with address `i`: the element that
precedes it in the chain, `none` when it is the first one or absent. -/
def predElem : List list_element_t → Nat → Option list_element_t
  | [], _ => none
  | x :: xs, i => if x.id = i then none else predElemAux x xs i

/-- The search loop of `list_remove` (list.c lines 386-392): walk the chain
from `first` and stop at the first node whose payload pointer equals `e`. -/
def findElem : List list_element_t → Nat → Option list_element_t
  | [], _ => none
  | x :: xs, e => if x.e = e then some x else findElem xs e

/-- Unlinking the node found by `findElem` (list.c lines 399-420): remove
the first node whose payload pointer equals `e` from the chain sequence. -/
def unlinkElem : List list_element_t → Nat → List list_element_t
  | [], _ => []
  | x :: xs, e => if x.e = e then xs else x :: unlinkElem xs e

/-- The sorted-insertion walk of `list_add` (list.c lines 113-133): walk
`tmp` from `first`; when `sort (tmp->e) e` is `false`, link the new node
`el` just before `tmp`; when the walk falls off the end, append `el` after
`last`. -/
def sortWalk (f : Nat → Nat → Bool) (el : list_element_t) (e : Nat) :
    List list_element_t → List list_element_t
  | [] => [el]
  | x :: xs => if f x.e e then x :: sortWalk f el e xs else el :: x :: xs

/-- `list_create` (list.c lines 63-84), success path: a zeroed `list_t`
with the `alloc` flag and `sort` callback recorded. -/
def list_create (alloc : Bool) (sort : Option (Nat → Nat → Bool)) : list_t :=
  { chain := [], curr := none, count := 0, alloc := alloc, sort := sort, nextId := 0 }

/-- `list_create_element` (list.c lines 566-593).  Allocates the node
(oracle `nodeOk`); in owning mode additionally allocates the payload copy
(oracle `copyOk`) and stores its fresh address, otherwise stores the caller
pointer `e` verbatim.  On failure everything allocated so far is freed and
`none` (`NULL`) is returned; on success the node and the advanced
allocator state are returned.  `size` is the byte count of the copy; byte
contents are not modelled. -/
def list_create_element (l : list_t) (e : Nat) (size : Nat)
    (nodeOk copyOk : Bool) : Option (list_element_t × list_t) :=
  let _ := size
  if nodeOk then
    if l.alloc then
      if copyOk then
        some ({ id := l.nextId, e := l.nextId + 1 }, { l with nextId := l.nextId + 2 })
      else
        none
    else
      some ({ id := l.nextId, e := e }, { l with nextId := l.nextId + 1 })
  else
    none

/-- `list_add` (list.c lines 93-146): create the node first (failure
returns `-1` with the list untouched); empty list installs the node as
`first = last = curr`; with a `sort` callback the node is placed by
`sortWalk`; otherwise it is appended after `last`. -/
def list_add (l : list_t) (e : Nat) (size : Nat) (nodeOk copyOk : Bool) :
    Int × list_t :=
  match list_create_element l e size nodeOk copyOk with
  | none => (-1, l)
  | some (el, l1) =>
    match l1.chain with
    | [] => (0, { l1 with chain := [el], curr := some el, count := l1.count + 1 })
    | x :: xs =>
      match l1.sort with
      | some f => (0, { l1 with chain := sortWalk f el e (x :: xs), count := l1.count + 1 })
      | none => (0, { l1 with chain := l1.chain ++ [el], count := l1.count + 1 })

/-- `list_add_head` (list.c lines 155-185): create the node first; empty
list installs it as `first = last = curr`; otherwise it is linked before
`first`. -/
def list_add_head (l : list_t) (e : Nat) (size : Nat) (nodeOk copyOk : Bool) :
    Int × list_t :=
  match list_create_element l e size nodeOk copyOk with
  | none => (-1, l)
  | some (el, l1) =>
    match l1.chain with
    | [] => (0, { l1 with chain := [el], curr := some el, count := l1.count + 1 })
    | x :: xs => (0, { l1 with chain := el :: x :: xs, count := l1.count + 1 })

/-- `list_add_tail` (list.c lines 194-224): create the node first; empty
list (`NULL == list->last`) installs it as `first = last = curr`;
otherwise it is linked after `last`. -/
def list_add_tail (l : list_t) (e : Nat) (size : Nat) (nodeOk copyOk : Bool) :
    Int × list_t :=
  match list_create_element l e size nodeOk copyOk with
  | none => (-1, l)
  | some (el, l1) =>
    match l1.chain.getLast? with
    | none => (0, { l1 with chain := [el], curr := some el, count := l1.count + 1 })
    | some _ => (0, { l1 with chain := l1.chain ++ [el], count := l1.count + 1 })

/-- `list_get_count` (list.c lines 231-248): guarded read of `count`. -/
def list_get_count (l : list_t) : Nat :=
  l.count

/-- `list_get_head` (list.c lines 255-277): `curr := first`; return
`curr->e` when `curr` is not `NULL`. -/
def list_get_head (l : list_t) : Option Nat × list_t :=
  let c := list_first l
  (c.map (·.e), { l with curr := c })

/-- `list_get_tail` (list.c lines 284-306): `curr := last`; return
`curr->e` when `curr` is not `NULL`. -/
def list_get_tail (l : list_t) : Option Nat × list_t :=
  let c := list_last l
  (c.map (·.e), { l with curr := c })

/-- `list_get_next` (list.c lines 313-337): when `curr` is not `NULL`,
`curr := curr->next`; return the new `curr`'s payload or `NULL`. -/
def list_get_next (l : list_t) : Option Nat × list_t :=
  match l.curr with
  | none => (none, l)
  | some c =>
    let c1 := succElem l.chain c.id
    (c1.map (·.e), { l with curr := c1 })

/-- `list_get_prev` (list.c lines 344-368): when `curr` is not `NULL`,
`curr := curr->prev`; return the new `curr`'s payload or `NULL`. -/
def list_get_prev (l : list_t) : Option Nat × list_t :=
  match l.curr with
  | none => (none, l)
  | some c =>
    let c1 := predElem l.chain c.id
    (c1.map (·.e), { l with curr := c1 })

/-- `list_remove` (list.c lines 375-436).  Search the chain for the first
node whose payload pointer equals `e` (lines 386-392); not found returns
`NULL` with no mutation (lines 393-397).  Otherwise: `curr` retreats to
`tmp->prev` when it pointed at `tmp` (lines 409-412), the node is unlinked
(`first`/`last` fixes of lines 399-407 are implicit in the sequence
update), `count` is decremented, `ret = tmp->next` — the address of the
following NODE, not its payload (line 424) — then `tmp->e` is freed in
owning mode and the node is freed (lines 426-430).  Returns
`(ret, new state, freed addresses)`. -/
def list_remove (l : list_t) (e : Nat) : Option Nat × list_t × List Nat :=
  match findElem l.chain e with
  | none => (none, l, [])
  | some tmp =>
    let curr' := match l.curr with
      | some c => if c.id = tmp.id then predElem l.chain tmp.id else l.curr
      | none => none
    let ret := (succElem l.chain tmp.id).map (·.id)
    let freed := (if l.alloc ∧ tmp.e ≠ 0 then [tmp.e] else []) ++ [tmp.id]
    (ret,
     { l with chain := unlinkElem l.chain e, curr := curr', count := l.count - 1 },
     freed)

/-- `list_remove_head` (list.c lines 443-480).  When `curr` points at
`first`, `curr := first->next` (lines 454-456); the head's payload is the
result (lines 459-461); the head node is unlinked, `count` decremented and
only the NODE freed — the payload is not freed (lines 464-474).  Empty
list returns `NULL` with no mutation. -/
def list_remove_head (l : list_t) : Option Nat × list_t × List Nat :=
  match l.chain with
  | [] => (none, l, [])
  | h :: rest =>
    let curr' := match l.curr with
      | some c => if c.id = h.id then rest.head? else l.curr
      | none => none
    (some h.e, { l with chain := rest, curr := curr', count := l.count - 1 }, [h.id])

/-- Drop the last element of the chain, mirroring lines 508-515 of
`list_remove_tail`. -/
def dropLastElem : List list_element_t → List list_element_t
  | [] => []
  | [_] => []
  | x :: y :: r => x :: dropLastElem (y :: r)

/-- `list_remove_tail` (list.c lines 487-524).  When `curr` points at
`last`, `curr := last->prev` (lines 498-500); the tail's payload is the
result (lines 503-505); the tail node is unlinked, `count` decremented and
only the NODE freed — the payload is not freed (lines 508-518).  Empty
list returns `NULL` with no mutation. -/
def list_remove_tail (l : list_t) : Option Nat × list_t × List Nat :=
  match list_last l with
  | none => (none, l, [])
  | some t =>
    let curr' := match l.curr with
      | some c => if c.id = t.id then predElem l.chain t.id else l.curr
      | none => none
    (some t.e,
     { l with chain := dropLastElem l.chain, curr := curr', count := l.count - 1 },
     [t.id])

/-! ## Well-formedness: the allocator hands out fresh addresses, so node
addresses in the chain are distinct and below `nextId`; `count` matches
the chain length. -/

def WF (l : list_t) : Prop :=
  l.count = l.chain.length ∧ (l.chain.map (·.id)).Nodup ∧
    ∀ x ∈ l.chain, x.id < l.nextId

/-- The reachable list states: those produced from `list_create` by the
public operations. -/
inductive Reachable : list_t → Prop
  | create (alloc : Bool) (sort : Option (Nat → Nat → Bool)) :
      Reachable (list_create alloc sort)
  | add (l : list_t) (e size : Nat) (a b : Bool) :
      Reachable l → Reachable (list_add l e size a b).2
  | add_head (l : list_t) (e size : Nat) (a b : Bool) :
      Reachable l → Reachable (list_add_head l e size a b).2
  | add_tail (l : list_t) (e size : Nat) (a b : Bool) :
      Reachable l → Reachable (list_add_tail l e size a b).2
  | get_head (l : list_t) : Reachable l → Reachable (list_get_head l).2
  | get_tail (l : list_t) : Reachable l → Reachable (list_get_tail l).2
  | get_next (l : list_t) : Reachable l → Reachable (list_get_next l).2
  | get_prev (l : list_t) : Reachable l → Reachable (list_get_prev l).2
  | remove (l : list_t) (e : Nat) : Reachable l → Reachable (list_remove l e).2.1
  | remove_head (l : list_t) : Reachable l → Reachable (list_remove_head l).2.1
  | remove_tail (l : list_t) : Reachable l → Reachable (list_remove_tail l).2.1

/-! ## Operation traces (for the count invariant) -/

/-- One public mutating call, with its allocation oracles. -/
inductive Op where
  | add (e size : Nat) (nodeOk copyOk : Bool)
  | addHead (e size : Nat) (nodeOk copyOk : Bool)
  | addTail (e size : Nat) (nodeOk copyOk : Bool)
  | remove (e : Nat)
  | removeHead
  | removeTail

/-- Apply one call; report the new state together with whether it was a
successful add (return value `0`) or a successful removal (a node was
actually unlinked, observable as a non-empty freed set). -/
def applyOp (l : list_t) : Op → list_t × Bool × Bool
  | .add e size a b =>
    let r := list_add l e size a b
    (r.2, r.1 == 0, false)
  | .addHead e size a b =>
    let r := list_add_head l e size a b
    (r.2, r.1 == 0, false)
  | .addTail e size a b =>
    let r := list_add_tail l e size a b
    (r.2, r.1 == 0, false)
  | .remove e =>
    let r := list_remove l e
    (r.2.1, false, !r.2.2.isEmpty)
  | .removeHead =>
    let r := list_remove_head l
    (r.2.1, false, !r.2.2.isEmpty)
  | .removeTail =>
    let r := list_remove_tail l
    (r.2.1, false, !r.2.2.isEmpty)

/-- Run a sequence of calls; return the final state, the number of
successful adds and the number of successful removals. -/
def runOps : list_t → List Op → list_t × Nat × Nat
  | l, [] => (l, 0, 0)
  | l, op :: ops =>
    let s := applyOp l op
    let r := runOps s.1 ops
    (r.1, (if s.2.1 then 1 else 0) + r.2.1, (if s.2.2 then 1 else 0) + r.2.2)

/-! ## Iterating from `head` via `next` -/

/-- Repeatedly call `list_get_next`, collecting the returned payloads until
it returns `NULL`; `fuel` bounds the number of calls. -/
def walkNext : list_t → Nat → List Nat
  | _, 0 => []
  | l, fuel + 1 =>
    match list_get_next l with
    | (none, _) => []
    | (some e, l1) => e :: walkNext l1 fuel

/-- Call `list_get_head`, then collect payloads with `walkNext` until
`NULL` is returned: the standard iteration pattern of the library. -/
def walkHead (l : list_t) (fuel : Nat) : List Nat :=
  match list_get_head l with
  | (none, _) => []
  | (some e, l1) => e :: walkNext l1 fuel

/-- The ascending-order comparator used by concrete sorted-insert tests:
`true` while the existing element should still precede the new one. -/
def cmpLe (a b : Nat) : Bool := Nat.ble a b

/-! ## Basic lemmas about the chain helpers -/

theorem sortWalk_eq (f : Nat → Nat → Bool) (el : list_element_t) (e : Nat) :
    ∀ c : List list_element_t,
      sortWalk f el e c =
        c.takeWhile (fun x => f x.e e) ++ el :: c.dropWhile (fun x => f x.e e)
  | [] => rfl
  | x :: xs => by
    by_cases h : f x.e e = true
    · simp [sortWalk, h, List.takeWhile, List.dropWhile, sortWalk_eq f el e xs]
    · simp [sortWalk, h, List.takeWhile, List.dropWhile]

theorem sortWalk_perm (f : Nat → Nat → Bool) (el : list_element_t) (e : Nat) :
    ∀ c : List list_element_t, (sortWalk f el e c).Perm (el :: c)
  | [] => List.Perm.refl _
  | x :: xs => by
    by_cases h : f x.e e = true
    · simpa [sortWalk, h] using ((sortWalk_perm f el e xs).cons x).trans (List.Perm.swap el x xs)
    · simp [sortWalk, h]

theorem findElem_eq_none {c : List list_element_t} {e : Nat} :
    findElem c e = none ↔ ∀ x ∈ c, x.e ≠ e := by
  induction c with
  | nil => simp [findElem]
  | cons x xs ih =>
    by_cases h : x.e = e <;> simp [findElem, h, ih]

theorem findElem_mem {c : List list_element_t} {e : Nat} {t : list_element_t}
    (h : findElem c e = some t) : t ∈ c := by
  induction c with
  | nil => simp [findElem] at h
  | cons x xs ih =>
    by_cases hx : x.e = e
    · simp [findElem, hx] at h
      simp [h]
    · simp [findElem, hx] at h
      exact List.mem_cons_of_mem _ (ih h)

theorem unlinkElem_sublist (e : Nat) :
    ∀ c : List list_element_t, (unlinkElem c e).Sublist c
  | [] => List.Sublist.refl _
  | x :: xs => by
    by_cases h : x.e = e
    · rw [unlinkElem, if_pos h]
      exact List.sublist_cons_self x xs
    · simpa [unlinkElem, h] using (unlinkElem_sublist e xs).cons₂ x

theorem unlinkElem_length {c : List list_element_t} {e : Nat} {t : list_element_t}
    (h : findElem c e = some t) : (unlinkElem c e).length + 1 = c.length := by
  induction c with
  | nil => simp [findElem] at h
  | cons x xs ih =>
    by_cases hx : x.e = e
    · simp [unlinkElem, hx]
    · simp [findElem, hx] at h
      simp [unlinkElem, hx, ih h]

theorem dropLastElem_eq : ∀ c : List list_element_t, dropLastElem c = c.dropLast
  | [] => rfl
  | [_] => rfl
  | x :: y :: r => by
    simpa [dropLastElem] using dropLastElem_eq (y :: r)

theorem succElem_append {c : list_element_t} (post : List list_element_t) :
    ∀ pre : List list_element_t, c.id ∉ pre.map (·.id) →
      succElem (pre ++ c :: post) c.id = post.head?
  | [], _ => by simp [succElem]
  | p :: ps, h => by
    simp only [List.map_cons, List.mem_cons] at h
    push_neg at h
    have hne : ¬ (p.id = c.id) := fun hc => h.1 hc.symm
    show succElem (p :: (ps ++ c :: post)) c.id = post.head?
    simp only [succElem]
    rw [if_neg hne]
    exact succElem_append post ps h.2

theorem wf_create (alloc : Bool) (sort : Option (Nat → Nat → Bool)) :
    WF (list_create alloc sort) := by
  refine ⟨rfl, by simp [list_create], by simp [list_create]⟩

theorem list_create_element_spec {l : list_t} {e size : Nat} {nodeOk copyOk : Bool}
    {el : list_element_t} {l1 : list_t}
    (h : list_create_element l e size nodeOk copyOk = some (el, l1)) :
    el.id = l.nextId ∧ l1.chain = l.chain ∧ l1.curr = l.curr ∧
      l1.count = l.count ∧ l1.alloc = l.alloc ∧ l1.sort = l.sort ∧
      l.nextId < l1.nextId := by
  cases nodeOk with
  | false => simp [list_create_element] at h
  | true =>
    cases hb : l.alloc with
    | false =>
      simp [list_create_element, hb] at h
      obtain ⟨h1, h2⟩ := h
      subst h1
      subst h2
      simp [hb]
    | true =>
      cases copyOk with
      | false => simp [list_create_element, hb] at h
      | true =>
        simp [list_create_element, hb] at h
        obtain ⟨h1, h2⟩ := h
        subst h1
        subst h2
        simp [hb]

/-- Inserting a freshly allocated node anywhere in the chain preserves
well-formedness. -/
theorem wf_insert {l l1 : list_t} {el : list_element_t} {c' : List list_element_t}
    (h : WF l) (_hchain : l1.chain = l.chain) (hid : el.id = l.nextId)
    (hlt : l.nextId < l1.nextId) (hcount : l1.count = l.count)
    (hperm : c'.Perm (el :: l.chain)) :
    WF { l1 with chain := c', count := l1.count + 1 } := by
  obtain ⟨hc, hnd, hb⟩ := h
  refine ⟨?_, ?_, ?_⟩
  · show l1.count + 1 = c'.length
    rw [hperm.length_eq]
    simp [hcount, hc]
  · show (c'.map (·.id)).Nodup
    have hmap : (c'.map (·.id)).Perm ((el :: l.chain).map (·.id)) := hperm.map _
    refine hmap.nodup_iff.mpr ?_
    simp only [List.map_cons]
    refine List.nodup_cons.mpr ⟨?_, hnd⟩
    intro hmem
    obtain ⟨x, hx, hxe⟩ := List.mem_map.mp hmem
    have h1 : x.id < l.nextId := hb x hx
    have h2 : x.id = el.id := hxe
    omega
  · intro x hx
    show x.id < l1.nextId
    have hx' : x ∈ el :: l.chain := hperm.mem_iff.mp hx
    rcases List.mem_cons.mp hx' with h1 | h1
    · subst h1
      omega
    · have h2 : x.id < l.nextId := hb x h1
      omega

/-- `list_add` either fails leaving the list untouched, or succeeds with
`count` incremented and well-formedness preserved. -/
theorem add_cases (l : list_t) (e size : Nat) (a b : Bool) (h : WF l) :
    (list_add l e size a b = (-1, l)) ∨
      ((list_add l e size a b).1 = 0 ∧ WF (list_add l e size a b).2 ∧
        (list_add l e size a b).2.count = l.count + 1) := by
  match hce : list_create_element l e size a b with
  | none => exact Or.inl (by simp [list_add, hce])
  | some (el, l1) =>
    obtain ⟨hid, hchain, _, hcount, _, _, hlt⟩ := list_create_element_spec hce
    right
    match hc : l1.chain with
    | [] =>
      have hc' : l.chain = [] := hchain ▸ hc
      refine ⟨by simp [list_add, hce, hc], ?_, by simp [list_add, hce, hc, hcount]⟩
      simp only [list_add, hce, hc]
      exact wf_insert h hchain hid hlt hcount (by simp [hc'])
    | x :: xs =>
      match hs : l1.sort with
      | some f =>
        refine ⟨by simp [list_add, hce, hc, hs], ?_, by simp [list_add, hce, hc, hs, hcount]⟩
        simp only [list_add, hce, hc, hs]
        have hperm : (sortWalk f el e (x :: xs)).Perm (el :: l.chain) := by
          rw [← hchain, hc]
          exact sortWalk_perm f el e (x :: xs)
        exact wf_insert h hchain hid hlt hcount hperm
      | none =>
        refine ⟨by simp [list_add, hce, hc, hs], ?_, by simp [list_add, hce, hc, hs, hcount]⟩
        simp only [list_add, hce, hc, hs]
        have hperm : (l1.chain ++ [el]).Perm (el :: l.chain) := by
          rw [hchain]
          exact List.perm_append_singleton el l.chain
        have := wf_insert h hchain hid hlt hcount hperm
        rw [hc] at this
        exact this

/-- `list_add_head` either fails leaving the list untouched, or succeeds
with `count` incremented and well-formedness preserved. -/
theorem add_head_cases (l : list_t) (e size : Nat) (a b : Bool) (h : WF l) :
    (list_add_head l e size a b = (-1, l)) ∨
      ((list_add_head l e size a b).1 = 0 ∧ WF (list_add_head l e size a b).2 ∧
        (list_add_head l e size a b).2.count = l.count + 1) := by
  match hce : list_create_element l e size a b with
  | none => exact Or.inl (by simp [list_add_head, hce])
  | some (el, l1) =>
    obtain ⟨hid, hchain, _, hcount, _, _, hlt⟩ := list_create_element_spec hce
    right
    match hc : l1.chain with
    | [] =>
      have hc' : l.chain = [] := hchain ▸ hc
      refine ⟨by simp [list_add_head, hce, hc], ?_, by simp [list_add_head, hce, hc, hcount]⟩
      simp only [list_add_head, hce, hc]
      exact wf_insert h hchain hid hlt hcount (by simp [hc'])
    | x :: xs =>
      refine ⟨by simp [list_add_head, hce, hc], ?_, by simp [list_add_head, hce, hc, hcount]⟩
      simp only [list_add_head, hce, hc]
      have hperm : (el :: x :: xs).Perm (el :: l.chain) := by
        rw [← hchain, hc]
      exact wf_insert h hchain hid hlt hcount hperm

/-- `list_add_tail` either fails leaving the list untouched, or succeeds
with `count` incremented and well-formedness preserved. -/
theorem add_tail_cases (l : list_t) (e size : Nat) (a b : Bool) (h : WF l) :
    (list_add_tail l e size a b = (-1, l)) ∨
      ((list_add_tail l e size a b).1 = 0 ∧ WF (list_add_tail l e size a b).2 ∧
        (list_add_tail l e size a b).2.count = l.count + 1) := by
  match hce : list_create_element l e size a b with
  | none => exact Or.inl (by simp [list_add_tail, hce])
  | some (el, l1) =>
    obtain ⟨hid, hchain, _, hcount, _, _, hlt⟩ := list_create_element_spec hce
    right
    match hc : l1.chain.getLast? with
    | none =>
      have hc0 : l1.chain = [] := List.getLast?_eq_none_iff.mp hc
      have hc' : l.chain = [] := hchain ▸ hc0
      refine ⟨by simp [list_add_tail, hce, hc], ?_, by simp [list_add_tail, hce, hc, hcount]⟩
      simp only [list_add_tail, hce, hc]
      exact wf_insert h hchain hid hlt hcount (by simp [hc'])
    | some y =>
      refine ⟨by simp [list_add_tail, hce, hc], ?_, by simp [list_add_tail, hce, hc, hcount]⟩
      simp only [list_add_tail, hce, hc]
      have hperm : (l1.chain ++ [el]).Perm (el :: l.chain) := by
        rw [hchain]
        exact List.perm_append_singleton el l.chain
      exact wf_insert h hchain hid hlt hcount hperm

/-- `list_remove` either finds nothing (frees nothing, list untouched) or
frees something, preserves well-formedness and decrements `count`. -/
theorem remove_cases (l : list_t) (e : Nat) (h : WF l) :
    (list_remove l e).2.2 = [] ∧ (list_remove l e).2.1 = l ∨
      (list_remove l e).2.2 ≠ [] ∧ WF (list_remove l e).2.1 ∧
        (list_remove l e).2.1.count + 1 = l.count := by
  obtain ⟨hc, hnd, hb⟩ := h
  match hf : findElem l.chain e with
  | none => exact Or.inl (by simp [list_remove, hf])
  | some tmp =>
    have hlen : (unlinkElem l.chain e).length + 1 = l.chain.length := unlinkElem_length hf
    have hsub : (unlinkElem l.chain e).Sublist l.chain := unlinkElem_sublist e l.chain
    simp only [list_remove, hf]
    right
    refine ⟨by simp, ⟨?_, ?_, ?_⟩, ?_⟩
    · show l.count - 1 = (unlinkElem l.chain e).length
      omega
    · show ((unlinkElem l.chain e).map (·.id)).Nodup
      exact (hsub.map _).nodup hnd
    · intro x hx
      show x.id < l.nextId
      exact hb x (hsub.mem hx)
    · show l.count - 1 + 1 = l.count
      omega

/-- `list_remove_head` on an empty list frees nothing and leaves the list
untouched; otherwise it frees the head node, preserves well-formedness
and decrements `count`. -/
theorem remove_head_cases (l : list_t) (h : WF l) :
    (list_remove_head l).2.2 = [] ∧ (list_remove_head l).2.1 = l ∨
      (list_remove_head l).2.2 ≠ [] ∧ WF (list_remove_head l).2.1 ∧
        (list_remove_head l).2.1.count + 1 = l.count := by
  obtain ⟨hc, hnd, hb⟩ := h
  match hch : l.chain with
  | [] => exact Or.inl (by simp [list_remove_head, hch])
  | x :: xs =>
    rw [hch] at hc hnd
    simp only [List.length_cons] at hc
    simp only [List.map_cons, List.nodup_cons] at hnd
    simp only [list_remove_head, hch]
    right
    refine ⟨by simp, ⟨?_, ?_, ?_⟩, ?_⟩
    · show l.count - 1 = xs.length
      omega
    · show (xs.map (·.id)).Nodup
      exact hnd.2
    · intro y hy
      show y.id < l.nextId
      refine hb y ?_
      rw [hch]
      exact List.mem_cons_of_mem _ hy
    · show l.count - 1 + 1 = l.count
      omega

/-- `list_remove_tail` on an empty list frees nothing and leaves the list
untouched; otherwise it frees the tail node, preserves well-formedness
and decrements `count`. -/
theorem remove_tail_cases (l : list_t) (h : WF l) :
    (list_remove_tail l).2.2 = [] ∧ (list_remove_tail l).2.1 = l ∨
      (list_remove_tail l).2.2 ≠ [] ∧ WF (list_remove_tail l).2.1 ∧
        (list_remove_tail l).2.1.count + 1 = l.count := by
  obtain ⟨hc, hnd, hb⟩ := h
  match hch : list_last l with
  | none => exact Or.inl (by simp [list_remove_tail, hch])
  | some t =>
    have hne : l.chain ≠ [] := by
      intro h0
      rw [list_last, h0] at hch
      simp at hch
    have hlen : l.chain.length ≠ 0 := fun h0 => hne (List.length_eq_zero.mp h0)
    have hdl : dropLastElem l.chain = l.chain.dropLast := dropLastElem_eq l.chain
    have hsub : l.chain.dropLast.Sublist l.chain := List.dropLast_sublist l.chain
    simp only [list_remove_tail, hch]
    right
    refine ⟨by simp, ⟨?_, ?_, ?_⟩, ?_⟩
    · show l.count - 1 = (dropLastElem l.chain).length
      rw [hdl, List.length_dropLast]
      omega
    · show ((dropLastElem l.chain).map (·.id)).Nodup
      rw [hdl]
      exact (hsub.map _).nodup hnd
    · intro y hy
      show y.id < l.nextId
      rw [hdl] at hy
      exact hb y (hsub.mem hy)
    · show l.count - 1 + 1 = l.count
      omega

/-- The four navigation operations only move `curr`; well-formedness does
not mention `curr`, so it is preserved. -/
theorem wf_navigation (l : list_t) (h : WF l) :
    WF (list_get_head l).2 ∧ WF (list_get_tail l).2 ∧
      WF (list_get_next l).2 ∧ WF (list_get_prev l).2 := by
  obtain ⟨hc, hnd, hb⟩ := h
  refine ⟨⟨hc, hnd, hb⟩, ⟨hc, hnd, hb⟩, ?_, ?_⟩
  · match hcu : l.curr with
    | none =>
      simp only [list_get_next, hcu]
      exact ⟨hc, hnd, hb⟩
    | some c =>
      simp only [list_get_next, hcu]
      exact ⟨hc, hnd, hb⟩
  · match hcu : l.curr with
    | none =>
      simp only [list_get_prev, hcu]
      exact ⟨hc, hnd, hb⟩
    | some c =>
      simp only [list_get_prev, hcu]
      exact ⟨hc, hnd, hb⟩

/-- Every reachable state is well-formed. -/
theorem reachable_wf {l : list_t} (h : Reachable l) : WF l := by
  induction h with
  | create alloc sort => exact wf_create alloc sort
  | add l e size a b _ ih =>
    rcases add_cases l e size a b ih with h1 | h1
    · rw [h1]
      exact ih
    · exact h1.2.1
  | add_head l e size a b _ ih =>
    rcases add_head_cases l e size a b ih with h1 | h1
    · rw [h1]
      exact ih
    · exact h1.2.1
  | add_tail l e size a b _ ih =>
    rcases add_tail_cases l e size a b ih with h1 | h1
    · rw [h1]
      exact ih
    · exact h1.2.1
  | get_head l _ ih => exact (wf_navigation l ih).1
  | get_tail l _ ih => exact (wf_navigation l ih).2.1
  | get_next l _ ih => exact (wf_navigation l ih).2.2.1
  | get_prev l _ ih => exact (wf_navigation l ih).2.2.2
  | remove l e _ ih =>
    rcases remove_cases l e ih with h1 | h1
    · rw [h1.2]
      exact ih
    · exact h1.2.1
  | remove_head l _ ih =>
    rcases remove_head_cases l ih with h1 | h1
    · rw [h1.2]
      exact ih
    · exact h1.2.1
  | remove_tail l _ ih =>
    rcases remove_tail_cases l ih with h1 | h1
    · rw [h1.2]
      exact ih
    · exact h1.2.1

/-- One step: well-formedness is preserved and the success flags account
exactly for the change of `count`. -/
theorem applyOp_step (l : list_t) (op : Op) (h : WF l) :
    WF (applyOp l op).1 ∧
      (applyOp l op).1.count + (if (applyOp l op).2.2 then 1 else 0) =
        l.count + (if (applyOp l op).2.1 then 1 else 0) := by
  match op with
  | .add e size a b =>
    rcases add_cases l e size a b h with h1 | h1
    · simp [applyOp, h1]
      exact h
    · obtain ⟨hr, hwf, hcount⟩ := h1
      simp [applyOp, hr, hcount]
      exact hwf
  | .addHead e size a b =>
    rcases add_head_cases l e size a b h with h1 | h1
    · simp [applyOp, h1]
      exact h
    · obtain ⟨hr, hwf, hcount⟩ := h1
      simp [applyOp, hr, hcount]
      exact hwf
  | .addTail e size a b =>
    rcases add_tail_cases l e size a b h with h1 | h1
    · simp [applyOp, h1]
      exact h
    · obtain ⟨hr, hwf, hcount⟩ := h1
      simp [applyOp, hr, hcount]
      exact hwf
  | .remove e =>
    rcases remove_cases l e h with h1 | h1
    · simp [applyOp, h1.1, h1.2]
      exact h
    · obtain ⟨hfr, hwf, hcount⟩ := h1
      simp [applyOp, List.isEmpty_iff, hfr, hcount]
      exact hwf
  | .removeHead =>
    rcases remove_head_cases l h with h1 | h1
    · simp [applyOp, h1.1, h1.2]
      exact h
    · obtain ⟨hfr, hwf, hcount⟩ := h1
      simp [applyOp, List.isEmpty_iff, hfr, hcount]
      exact hwf
  | .removeTail =>
    rcases remove_tail_cases l h with h1 | h1
    · simp [applyOp, h1.1, h1.2]
      exact h
    · obtain ⟨hfr, hwf, hcount⟩ := h1
      simp [applyOp, List.isEmpty_iff, hfr, hcount]
      exact hwf

/-- Running calls from a well-formed state: well-formedness is preserved,
and successful adds account for the final count plus successful removals. -/
theorem runOps_invariant (ops : List Op) :
    ∀ l : list_t, WF l →
      WF (runOps l ops).1 ∧
        (runOps l ops).2.1 + l.count = (runOps l ops).1.count + (runOps l ops).2.2 := by
  induction ops with
  | nil =>
    intro l h
    exact ⟨h, by simp [runOps]⟩
  | cons op ops ih =>
    intro l h
    obtain ⟨hwf1, hstep⟩ := applyOp_step l op h
    obtain ⟨hwf2, hrun⟩ := ih (applyOp l op).1 hwf1
    refine ⟨by simpa [runOps] using hwf2, ?_⟩
    simp only [runOps]
    rcases h2 : (applyOp l op).2.1 with _ | _ <;>
      rcases h3 : (applyOp l op).2.2 with _ | _ <;>
      simp only [h2, h3, if_true, if_false] at hstep ⊢ <;> omega

theorem nodup_append_not_mem {pre post : List list_element_t} {c : list_element_t}
    (hnd : ((pre ++ c :: post).map (·.id)).Nodup) : c.id ∉ pre.map (·.id) := by
  rw [List.map_append] at hnd
  intro hmem
  exact List.disjoint_of_nodup_append hnd hmem (by simp)

/-- With distinct node addresses, `walkNext` from the node `c` visits
exactly the payloads of the part of the chain after `c`. -/
theorem walkNext_spec (post : List list_element_t) :
    ∀ (pre : List list_element_t) (l : list_t) (c : list_element_t) (fuel : Nat),
      l.chain = pre ++ c :: post → l.curr = some c →
      ((pre ++ c :: post).map (·.id)).Nodup → post.length ≤ fuel →
      walkNext l fuel = post.map (·.e) := by
  induction post with
  | nil =>
    intro pre l c fuel hch hcu hnd _
    have hsucc : succElem l.chain c.id = none := by
      rw [hch]
      rw [succElem_append [] pre (nodup_append_not_mem hnd)]
      rfl
    match fuel with
    | 0 => rfl
    | fuel + 1 =>
      simp [walkNext, list_get_next, hcu, hsucc]
  | cons d rest ih =>
    intro pre l c fuel hch hcu hnd hf
    have hsucc : succElem l.chain c.id = some d := by
      rw [hch]
      rw [succElem_append (d :: rest) pre (nodup_append_not_mem hnd)]
      rfl
    match fuel with
    | 0 => simp at hf
    | fuel + 1 =>
      simp only [walkNext, list_get_next, hcu, hsucc, Option.map_some', List.map_cons]
      have hch' : ({ l with curr := some d } : list_t).chain = (pre ++ [c]) ++ d :: rest := by
        simp [hch]
      have hnd' : (((pre ++ [c]) ++ d :: rest).map (·.id)).Nodup := by
        simpa using hnd
      have := ih (pre ++ [c]) { l with curr := some d } d fuel hch' rfl hnd' (by
        simp at hf
        omega)
      rw [this]

/-- In a well-formed state, iterating from `head` via `next` with `count`
as fuel visits exactly the chain's payloads, in order. -/
theorem walkHead_spec (l : list_t) (h : WF l) :
    walkHead l l.count = l.chain.map (·.e) := by
  obtain ⟨hc, hnd, _⟩ := h
  match hch : l.chain with
  | [] => simp [walkHead, list_get_head, list_first, hch]
  | x :: xs =>
    simp only [walkHead, list_get_head, list_first, hch, List.head?_cons,
      Option.map_some', List.map_cons]
    have hnd' : ((x :: xs).map (·.id)).Nodup := by
      rw [← hch]
      exact hnd
    have hf : xs.length ≤ l.count := by
      rw [hch] at hc
      simp only [List.length_cons] at hc
      omega
    have := walkNext_spec xs [] { l with curr := some x } x l.count
      (by simp [hch]) rfl hnd' hf
    rw [hch] at this
    rw [this]

/-! ## Claim theorems -/

/-- C9: on a freshly created (empty) list, each of `head`, `tail`, `next`,
`prev`, `removeHead`, and `removeTail` returns empty (`NULL`), frees
nothing, and leaves the state — in particular `count = 0` — unchanged. -/
theorem fresh_list_ops_return_empty (alloc : Bool) (sort : Option (Nat → Nat → Bool)) :
    list_get_head (list_create alloc sort) = (none, list_create alloc sort) ∧
      list_get_tail (list_create alloc sort) = (none, list_create alloc sort) ∧
      list_get_next (list_create alloc sort) = (none, list_create alloc sort) ∧
      list_get_prev (list_create alloc sort) = (none, list_create alloc sort) ∧
      list_remove_head (list_create alloc sort) = (none, list_create alloc sort, []) ∧
      list_remove_tail (list_create alloc sort) = (none, list_create alloc sort, []) ∧
      list_get_count (list_create alloc sort) = 0 :=
  ⟨rfl, rfl, rfl, rfl, rfl, rfl, rfl⟩

/-- C6: when allocation of the node (or, in owning mode, of the payload
copy) fails, `add`, `addHead` and `addTail` all return the failure code
`-1` and leave the list exactly as it was before the call. -/
theorem add_alloc_failure_no_mutation (l : list_t) (e size : Nat) (a b : Bool)
    (hfail : a = false ∨ (l.alloc = true ∧ b = false)) :
    list_add l e size a b = (-1, l) ∧ list_add_head l e size a b = (-1, l) ∧
      list_add_tail l e size a b = (-1, l) := by
  have hce : list_create_element l e size a b = none := by
    rcases hfail with h1 | ⟨h1, h2⟩
    · simp [list_create_element, h1]
    · cases a <;> simp [list_create_element, h1, h2]
  exact ⟨by simp [list_add, hce], by simp [list_add_head, hce], by simp [list_add_tail, hce]⟩

theorem add_alloc_failure_no_mutation_witness :
    list_add (list_create true none) 5 4 true false = (-1, list_create true none) ∧
      list_add_head (list_create true none) 5 4 true false = (-1, list_create true none) ∧
      list_add_tail (list_create true none) 5 4 true false = (-1, list_create true none) :=
  add_alloc_failure_no_mutation (list_create true none) 5 4 true false (Or.inr ⟨rfl, rfl⟩)

/-- C1 (code bug): on the non-owning list holding payloads `5, 7` (nodes
at addresses `0` and `1`), a successful `list_remove` of `5` returns
`tmp->next` — the address `1` of the following `list_element_t` node —
whereas the payload of the following node is `7`; the operation hands the
caller a node reference, not a payload reference. -/
theorem list_remove_returns_node_address :
    (list_remove (list_add (list_add (list_create false none) 5 1 true true).2 7 1 true true).2 5).1
        = some 1 ∧
      (succElem (list_add (list_add (list_create false none) 5 1 true true).2 7 1 true true).2.chain
            0).map (·.e) = some 7 ∧
      (list_remove (list_add (list_add (list_create false none) 5 1 true true).2 7 1 true true).2 5).1
        ≠ (succElem
            (list_add (list_add (list_create false none) 5 1 true true).2 7 1 true true).2.chain
            0).map (·.e) := by
  refine ⟨rfl, rfl, ?_⟩
  decide

/-- C2 (counterexample): on an owning-mode list whose single node sits at
address `0` with its list-owned payload copy at address `1`,
`list_remove_head` frees only the node address `0`; the payload copy `1`
is not freed, contradicting the claim that `removeHead` frees the element
memory in owning mode. -/
theorem remove_head_not_free_payload_cex :
    (list_add_head (list_create true none) 9 1 true true).2.alloc = true ∧
      ((list_add_head (list_create true none) 9 1 true true).2.chain.map (·.e)) = [1] ∧
      (list_remove_head (list_add_head (list_create true none) 9 1 true true).2).2.2 = [0] ∧
      (1 : Nat) ∉ (list_remove_head (list_add_head (list_create true none) 9 1 true true).2).2.2 := by
  refine ⟨rfl, rfl, rfl, ?_⟩
  decide

/-- C2 (amended): in owning mode `remove` frees the removed node's payload
copy and then the node; `removeHead` and `removeTail` free only the node —
the payload is returned to the caller without being freed. -/
theorem owning_mode_free_behavior (l : list_t) :
    (∀ e tmp, l.alloc = true → findElem l.chain e = some tmp → tmp.e ≠ 0 →
        (list_remove l e).2.2 = [tmp.e, tmp.id]) ∧
      (∀ h rest, l.chain = h :: rest → (list_remove_head l).2.2 = [h.id]) ∧
      (∀ t, list_last l = some t → (list_remove_tail l).2.2 = [t.id]) := by
  refine ⟨?_, ?_, ?_⟩
  · intro e tmp ha hf hne
    simp [list_remove, hf, ha, hne]
  · intro h rest hch
    simp [list_remove_head, hch]
  · intro t ht
    simp [list_remove_tail, ht]

theorem owning_mode_free_behavior_witness :
    (list_remove (list_add_head (list_create true none) 9 1 true true).2 1).2.2 = [1, 0] ∧
      (list_remove_head (list_add_head (list_create true none) 9 1 true true).2).2.2 = [0] ∧
      (list_remove_tail (list_add_head (list_create true none) 9 1 true true).2).2.2 = [0] :=
  ⟨(owning_mode_free_behavior _).1 1 ⟨0, 1⟩ rfl rfl (by decide),
   (owning_mode_free_behavior _).2.1 ⟨0, 1⟩ [] rfl,
   (owning_mode_free_behavior _).2.2 ⟨0, 1⟩ rfl⟩

/-- C3: on a non-empty list with a configured comparator, a successful
`add` walks the chain from head and inserts the new node immediately
before the first existing node for which the comparator returns `false`
(equivalently: after the longest prefix on which it returns `true`); when
it returns `true` for every existing element the node is appended at the
tail (the `dropWhile` part is then empty). -/
theorem add_sorted_inserts_before_first_false (l : list_t) (f : Nat → Nat → Bool)
    (e size : Nat) (a b : Bool) {el : list_element_t} {l1 : list_t}
    (hs : l.sort = some f) (hne : l.chain ≠ [])
    (hce : list_create_element l e size a b = some (el, l1)) :
    (list_add l e size a b).1 = 0 ∧
      (list_add l e size a b).2.chain =
        l.chain.takeWhile (fun x => f x.e e) ++
          el :: l.chain.dropWhile (fun x => f x.e e) := by
  obtain ⟨hid, hchain, _, hcount, _, hsort, hlt⟩ := list_create_element_spec hce
  match hch : l1.chain with
  | [] =>
    rw [hchain] at hch
    exact absurd hch hne
  | x :: xs =>
    have hs1 : l1.sort = some f := by rw [hsort, hs]
    constructor
    · simp [list_add, hce, hch, hs1]
    · simp only [list_add, hce, hch, hs1]
      show sortWalk f el e (x :: xs) = _
      rw [← hch, hchain, sortWalk_eq]

theorem add_sorted_inserts_before_first_false_witness :
    (list_add (list_add (list_add (list_create false (some cmpLe)) 10 1 true true).2
          30 1 true true).2 20 1 true true).2.chain =
      (list_add (list_add (list_create false (some cmpLe)) 10 1 true true).2
            30 1 true true).2.chain.takeWhile (fun x => cmpLe x.e 20) ++
        (⟨2, 20⟩ : list_element_t) ::
          (list_add (list_add (list_create false (some cmpLe)) 10 1 true true).2
            30 1 true true).2.chain.dropWhile (fun x => cmpLe x.e 20) :=
  (add_sorted_inserts_before_first_false
    (list_add (list_add (list_create false (some cmpLe)) 10 1 true true).2 30 1 true true).2
    cmpLe 20 1 true true rfl (by decide) rfl).2

/-- C4: in every reachable list state, `first` is `NULL` iff the count is
`0`, and `last` is `NULL` iff the count is `0` (hence `first` is `NULL`
iff `last` is); the invariant is closed under all public operations since
`Reachable` is. -/
theorem head_tail_empty_iff_count_zero (l : list_t) (hr : Reachable l) :
    (list_first l = none ↔ list_get_count l = 0) ∧
      (list_last l = none ↔ list_get_count l = 0) := by
  obtain ⟨hc, _, _⟩ := reachable_wf hr
  constructor
  · rw [list_first, list_get_count, hc, List.head?_eq_none_iff, ← List.length_eq_zero]
  · rw [list_last, list_get_count, hc, List.getLast?_eq_none_iff, ← List.length_eq_zero]

theorem head_tail_empty_iff_count_zero_witness :
    (list_first (list_add (list_create false none) 5 1 true true).2 = none ↔
        list_get_count (list_add (list_create false none) 5 1 true true).2 = 0) ∧
      (list_last (list_add (list_create false none) 5 1 true true).2 = none ↔
        list_get_count (list_add (list_create false none) 5 1 true true).2 = 0) :=
  head_tail_empty_iff_count_zero _
    (Reachable.add (list_create false none) 5 1 true true (Reachable.create false none))

/-- C5: after any sequence of `add`/`addHead`/`addTail`/`remove`/
`removeHead`/`removeTail` calls on a freshly created list, the number of
successful adds equals the final `count` plus the number of successful
removals (i.e. `count` = adds − removes), and iterating from `head` via
`next` until `NULL` visits exactly `count` nodes (the whole chain, in
order). -/
theorem count_tracks_adds_minus_removes (alloc : Bool)
    (sort : Option (Nat → Nat → Bool)) (ops : List Op) :
    (runOps (list_create alloc sort) ops).2.1 =
        (runOps (list_create alloc sort) ops).1.count +
          (runOps (list_create alloc sort) ops).2.2 ∧
      walkHead (runOps (list_create alloc sort) ops).1
          (runOps (list_create alloc sort) ops).1.count =
        (runOps (list_create alloc sort) ops).1.chain.map (·.e) ∧
      ((runOps (list_create alloc sort) ops).1.chain.map (·.e)).length =
        (runOps (list_create alloc sort) ops).1.count := by
  obtain ⟨hwf, hcount⟩ := runOps_invariant ops (list_create alloc sort) (wf_create _ _)
  refine ⟨?_, walkHead_spec _ hwf, ?_⟩
  · simpa [list_create] using hcount
  · rw [List.length_map, ← hwf.1]

/-- C7: with no comparator configured, `add` computes exactly the same
result (state and return value) as `addTail`; in particular three `add`
calls with payloads `1, 2, 3` yield iteration order `1, 2, 3` from head. -/
theorem add_without_sort_eq_add_tail :
    (∀ (l : list_t) (e size : Nat) (a b : Bool), l.sort = none →
        list_add l e size a b = list_add_tail l e size a b) ∧
      walkHead (list_add (list_add (list_add (list_create false none) 1 1 true true).2
            2 1 true true).2 3 1 true true).2 3 = [1, 2, 3] := by
  constructor
  · intro l e size a b hs
    match hce : list_create_element l e size a b with
    | none => simp [list_add, list_add_tail, hce]
    | some (el, l1) =>
      obtain ⟨_, _, _, _, _, hsort, _⟩ := list_create_element_spec hce
      have hs1 : l1.sort = none := by rw [hsort, hs]
      match hch : l1.chain with
      | [] => simp [list_add, list_add_tail, hce, hch]
      | x :: xs =>
        match hlast : (x :: xs).getLast? with
        | none =>
          have h0 := List.getLast?_eq_none_iff.mp hlast
          simp at h0
        | some y => simp [list_add, list_add_tail, hce, hch, hs1, hlast]
  · rfl

theorem add_without_sort_eq_add_tail_witness :
    list_add (list_create true none) 4 2 true true =
      list_add_tail (list_create true none) 4 2 true true :=
  add_without_sort_eq_add_tail.1 (list_create true none) 4 2 true true rfl

/-- C8: `remove` with a payload reference not present in the list returns
`NULL` and leaves the whole state unchanged (nothing freed); with a
present reference it decrements `count` by exactly one. -/
theorem remove_notfound_noop_found_decrements (l : list_t) (e : Nat)
    (hr : Reachable l) :
    ((∀ x ∈ l.chain, x.e ≠ e) → list_remove l e = (none, l, [])) ∧
      ((∃ x ∈ l.chain, x.e = e) → (list_remove l e).2.1.count + 1 = l.count) := by
  obtain ⟨hc, _, _⟩ := reachable_wf hr
  constructor
  · intro habs
    have hf : findElem l.chain e = none := findElem_eq_none.mpr habs
    simp [list_remove, hf]
  · intro hex
    match hf : findElem l.chain e with
    | none =>
      obtain ⟨x, hx, hxe⟩ := hex
      exact absurd hxe (findElem_eq_none.mp hf x hx)
    | some tmp =>
      have hmem : tmp ∈ l.chain := findElem_mem hf
      have hpos : 0 < l.chain.length := List.length_pos_of_mem hmem
      simp only [list_remove, hf]
      show l.count - 1 + 1 = l.count
      omega

theorem remove_notfound_noop_found_decrements_witness :
    list_remove (list_add (list_create false none) 5 1 true true).2 99 =
        (none, (list_add (list_create false none) 5 1 true true).2, []) ∧
      (list_remove (list_add (list_create false none) 5 1 true true).2 5).2.1.count + 1 =
        (list_add (list_create false none) 5 1 true true).2.count :=
  ⟨(remove_notfound_noop_found_decrements _ 99
      (Reachable.add (list_create false none) 5 1 true true
        (Reachable.create false none))).1 (by decide),
   (remove_notfound_noop_found_decrements _ 5
      (Reachable.add (list_create false none) 5 1 true true
        (Reachable.create false none))).2 (by decide)⟩

/-- C10: when the cursor sits on the tail node, `next` returns `NULL` and
sets the cursor to `NULL`; a subsequent `prev` also returns `NULL` and
leaves the state unchanged — the position is lost and cannot be recovered
by stepping back. -/
theorem next_at_tail_loses_position (l : list_t) (c : list_element_t)
    (ys : List list_element_t) (hcu : l.curr = some c) (hch : l.chain = ys ++ [c])
    (hnd : (l.chain.map (·.id)).Nodup) :
    (list_get_next l).1 = none ∧ (list_get_next l).2.curr = none ∧
      (list_get_prev (list_get_next l).2).1 = none ∧
      (list_get_prev (list_get_next l).2).2 = (list_get_next l).2 := by
  have hnd' : ((ys ++ [c]).map (·.id)).Nodup := by
    rw [← hch]
    exact hnd
  have hsucc : succElem l.chain c.id = none := by
    rw [hch, succElem_append [] ys (nodup_append_not_mem hnd')]
    rfl
  simp [list_get_next, list_get_prev, hcu, hsucc]

theorem next_at_tail_loses_position_witness :
    (list_get_next (list_get_tail (list_add_tail (list_add_tail (list_create false none)
          1 1 true true).2 2 1 true true).2).2).1 = none ∧
      (list_get_next (list_get_tail (list_add_tail (list_add_tail (list_create false none)
          1 1 true true).2 2 1 true true).2).2).2.curr = none ∧
      (list_get_prev ((list_get_next (list_get_tail (list_add_tail (list_add_tail
          (list_create false none) 1 1 true true).2 2 1 true true).2).2).2)).1 = none ∧
      (list_get_prev ((list_get_next (list_get_tail (list_add_tail (list_add_tail
          (list_create false none) 1 1 true true).2 2 1 true true).2).2).2)).2 =
        (list_get_next (list_get_tail (list_add_tail (list_add_tail (list_create false none)
          1 1 true true).2 2 1 true true).2).2).2 :=
  next_at_tail_loses_position _ ⟨1, 2⟩ [⟨0, 1⟩] rfl rfl (by decide)
